import Mathlib

/-!
# Verification of the Parallax confidence scoring engine

Shallow embedding of `packages/sdk-rust/src/confidence.rs` and proofs of the
frozen claims about it.

Modelling conventions:

* Rust `f64` values are modelled as exact rationals (`ℚ`).  All the arithmetic
  the engine performs (sums, products, divisions, comparisons, clamps) is
  modelled exactly; IEEE rounding is abstracted away.  Values that `f64`
  string parsing can produce but `ℚ` cannot (infinities, NaN) are modelled
  explicitly by the `FVal` type, so that `normalize_confidence_value`'s
  comparisons treat them exactly as the Rust comparisons do.
* `serde_json::Value` is modelled by `Json`; objects are association lists
  looked up by key.  (`serde_json`'s map iterates its keys sorted or in
  insertion order depending on a crate feature; no claim depends on key
  order, only on `Map::get` and on rendering being a fixed function.)
* `str::trim`, the regex class `\s` and `char::to_lowercase` are modelled on
  the ASCII subset of Unicode whitespace/case; every string any claim touches
  is ASCII.
* `serde_json`'s number formatting (shortest round-tripping decimal) is
  modelled by an exact decimal rendering of the rational; no claim depends on
  the digits of a rendered number, only on rendering being a fixed function.
-/

/- Decimal literals such as `0.5` elaborate through `Rat.ofScientific`,
which is irreducible by default and blocks `decide`-style evaluation;
restore reducibility so concrete instances evaluate. -/
attribute [local semireducible] Rat.ofScientific Rat.add Rat.mul Rat.sub Rat.inv

namespace Parallax

/-- Model of `serde_json::Value`. -/
inductive Json where
  | null : Json
  | bool (b : Bool) : Json
  | num (q : ℚ) : Json
  | str (s : String) : Json
  | arr (xs : List Json) : Json
  | obj (fields : List (String × Json)) : Json

/-- A parsed `f64`: finite value, signed infinity, or NaN.  Needed because
`"inf".parse::<f64>()` succeeds in Rust. -/
inductive FVal where
  | finite (q : ℚ) : FVal
  | posInf : FVal
  | negInf : FVal
  | nan : FVal

/-- ASCII subset of the characters matched by `char::is_whitespace` and the
regex class `\s`. -/
def isWsChar (c : Char) : Bool :=
  c = ' ' ∨ c = '\t' ∨ c = '\n' ∨ c = '\r' ∨ c = Char.ofNat 11 ∨ c = Char.ofNat 12

def isDigitChar (c : Char) : Bool :=
  '0' ≤ c ∧ c ≤ '9'

/-- `needle` occurs at the start of `hay`. -/
def isPref : List Char → List Char → Bool
  | [], _ => true
  | _ :: _, [] => false
  | n :: ns, h :: hs => n = h && isPref ns hs

/-- `needle` occurs somewhere in `hay`: models `str::contains`. -/
def containsSub (needle : List Char) : List Char → Bool
  | [] => isPref needle []
  | c :: cs => isPref needle (c :: cs) || containsSub needle cs

/-- Numeric value of a run of decimal digits. -/
def digitsVal (cs : List Char) : ℕ :=
  cs.foldl (fun a c => 10 * a + (c.toNat - 48)) 0

/-- `str::trim` (ASCII model): strip leading and trailing whitespace. -/
def trimWs (cs : List Char) : List Char :=
  ((cs.dropWhile isWsChar).reverse.dropWhile isWsChar).reverse

/-- `str::trim_end_matches('%')`: repeatedly remove a trailing percent sign,
i.e. strip the whole trailing run of them. -/
def stripPct (cs : List Char) : List Char :=
  (cs.reverse.dropWhile (fun c => c = '%')).reverse

/-- Parse the optional exponent tail of a float literal (`[eE][+-]?digits`),
requiring the whole remaining input to be consumed. -/
def parseExpPart (cs : List Char) : Option ℤ :=
  match cs with
  | [] => some 0
  | c :: rest =>
    if c = 'e' ∨ c = 'E' then
      let (neg, r2) : Bool × List Char :=
        match rest with
        | '+' :: r => (false, r)
        | '-' :: r => (true, r)
        | r => (false, r)
      let ds := r2.takeWhile isDigitChar
      if ds ≠ [] ∧ r2.dropWhile isDigitChar = [] then
        some (if neg then -(digitsVal ds : ℤ) else (digitsVal ds : ℤ))
      else none
    else none

/-- Model of `str::parse::<f64>()` on the cleaned string: optional sign, then
`inf`/`infinity`/`nan` (case-insensitive) or a decimal mantissa with optional
exponent.  The numeric value is kept exact in `ℚ` (IEEE rounding abstracted). -/
def parseF64 (cs : List Char) : Option FVal :=
  let (neg, rest) : Bool × List Char :=
    match cs with
    | '+' :: r => (false, r)
    | '-' :: r => (true, r)
    | r => (false, r)
  let low := rest.map Char.toLower
  if low = ['i', 'n', 'f'] ∨ low = ['i', 'n', 'f', 'i', 'n', 'i', 't', 'y'] then
    some (if neg then FVal.negInf else FVal.posInf)
  else if low = ['n', 'a', 'n'] then
    some FVal.nan
  else
    let intPart := rest.takeWhile isDigitChar
    let r1 := rest.dropWhile isDigitChar
    let withVal (frac : List Char) (tail : List Char) : Option FVal :=
      if intPart = [] ∧ frac = [] then none
      else
        (parseExpPart tail).map fun e =>
          let mant : ℚ := (digitsVal intPart : ℚ) + (digitsVal frac : ℚ) / 10 ^ frac.length
          FVal.finite ((if neg then -mant else mant) * (10 : ℚ) ^ e)
    match r1 with
    | '.' :: r2 => withVal (r2.takeWhile isDigitChar) (r2.dropWhile isDigitChar)
    | _ => withVal [] r1

/-- Lowercase hex digit, used by the `\u00XX` escape. -/
def hexDigit (n : ℕ) : Char :=
  if n < 10 then Char.ofNat (48 + n) else Char.ofNat (87 + n)

/-- JSON string escaping as performed by `serde_json`'s compact serializer. -/
def escChar (c : Char) : List Char :=
  if c = '"' then ['\\', '"']
  else if c = '\\' then ['\\', '\\']
  else if c.toNat = 8 then ['\\', 'b']
  else if c = '\t' then ['\\', 't']
  else if c = '\n' then ['\\', 'n']
  else if c.toNat = 12 then ['\\', 'f']
  else if c = '\r' then ['\\', 'r']
  else if c.toNat < 32 then ['\\', 'u', '0', '0', hexDigit (c.toNat / 16), hexDigit (c.toNat % 16)]
  else [c]

def renderString (s : String) : String :=
  ⟨'"' :: s.data.foldr (fun c acc => escChar c ++ acc) ['"']⟩

/-- Left-pad a digit string with zeros to length `n`. -/
def padZeros (s : String) (n : ℕ) : String :=
  if s.length ≥ n then s else ⟨List.replicate (n - s.length) '0' ++ s.data⟩

/-- Rendering of a number.  `serde_json` prints the shortest decimal that
round-trips the `f64`; this model prints the exact decimal expansion of the
rational (both are injective renderings, and no claim depends on the digits
themselves).  Rationals whose denominator divides no power of ten do
not arise from `f64` values; they get a fraction rendering. -/
def renderNum (q : ℚ) : String :=
  if q.den = 1 then toString q.num
  else
    match (List.range (q.den + 1)).find? (fun k => q.den ∣ 10 ^ k) with
    | some k =>
      let scaled := q.num.natAbs * (10 ^ k / q.den)
      let ds := padZeros (toString scaled) (k + 1)
      let ip : List Char := ds.data.take (ds.length - k)
      let fp : List Char := ds.data.drop (ds.length - k)
      ⟨(if q.num < 0 then ['-'] else []) ++ ip ++ '.' :: fp⟩
    | none => toString q.num ++ "/" ++ toString q.den

mutual

/-- Compact serialization of a `Json` value: models both `Value::to_string()`
and `serde_json::to_string` (they produce the same compact form). -/
def renderJson : Json → String
  | .null => "null"
  | .bool b => if b then "true" else "false"
  | .num q => renderNum q
  | .str s => renderString s
  | .arr xs => ⟨'[' :: (renderArr xs).data ++ [']']⟩
  | .obj fs => ⟨'{' :: (renderObj fs).data ++ ['}']⟩

def renderArr : List Json → String
  | [] => ""
  | [x] => renderJson x
  | x :: y :: rest => ⟨(renderJson x).data ++ ',' :: (renderArr (y :: rest)).data⟩

def renderObj : List (String × Json) → String
  | [] => ""
  | [(k, v)] => ⟨(renderString k).data ++ ':' :: (renderJson v).data⟩
  | (k, v) :: p :: rest =>
    ⟨(renderString k).data ++ ':' :: (renderJson v).data ++ ',' :: (renderObj (p :: rest)).data⟩

end

/-- `ConfidenceExtractor::normalize_confidence_value`: a value in `[0,1]` is
kept, a value in `(1,100]` is read as a percentage, anything else (including
NaN and infinities) falls back to the configured default. -/
def normalize_confidence_value (d : ℚ) : FVal → ℚ
  | .finite v => if 0 ≤ v ∧ v ≤ 1 then v else if 1 < v ∧ v ≤ 100 then v / 100 else d
  | .posInf => d
  | .negInf => d
  | .nan => d

/-- `ConfidenceExtractor::normalize_confidence`: numbers normalize via their
`f64` value; strings are trimmed, stripped of trailing percent signs and
parsed; every other JSON shape yields no value. -/
def normalize_confidence (d : ℚ) : Json → Option ℚ
  | .num q => some (normalize_confidence_value d (.finite q))
  | .str s => (parseF64 (stripPct (trimWs s.data))).map (normalize_confidence_value d)
  | _ => none

/-- Greedy read of `\d+\.?\d*` at the head of the input (head is a digit). -/
def readNumGreedy (cs : List Char) : ℚ :=
  let d1 := cs.takeWhile isDigitChar
  let r1 := cs.dropWhile isDigitChar
  match r1 with
  | '.' :: r2 =>
    let d2 := r2.takeWhile isDigitChar
    (digitsVal d1 : ℚ) + (digitsVal d2 : ℚ) / 10 ^ d2.length
  | _ => (digitsVal d1 : ℚ)

/-- Leftmost match of a pattern `lit\s*(\d+\.?\d*)` (the first four confidence
text patterns, with `lit` the literal prefix ending in a colon), returning the
captured number. -/
def searchColon (lit : List Char) : List Char → Option ℚ
  | [] => none
  | c :: cs =>
    if isPref lit (c :: cs) then
      let r2 := ((c :: cs).drop lit.length).dropWhile isWsChar
      match r2 with
      | d :: _ => if isDigitChar d then some (readNumGreedy r2) else searchColon lit cs
      | [] => searchColon lit cs
    else searchColon lit cs

/-- Continuation `\s*%\s*(?:confident|certain|sure)` of the fifth pattern. -/
def pctTail (cs : List Char) : Bool :=
  match cs.dropWhile isWsChar with
  | '%' :: r2 =>
    let r3 := r2.dropWhile isWsChar
    isPref ("confident").data r3 || isPref ("certain").data r3 || isPref ("sure").data r3
  | _ => false

/-- Leftmost match of `(\d+\.?\d*)\s*%\s*(?:confident|certain|sure)`, with the
regex's greedy-then-backtrack handling of the optional fractional part. -/
def searchPercent : List Char → Option ℚ
  | [] => none
  | c :: cs =>
    if isDigitChar c then
      let d1 := (c :: cs).takeWhile isDigitChar
      let r1 := (c :: cs).dropWhile isDigitChar
      match r1 with
      | '.' :: r2 =>
        let d2 := r2.takeWhile isDigitChar
        let r3 := r2.dropWhile isDigitChar
        if pctTail r3 then some ((digitsVal d1 : ℚ) + (digitsVal d2 : ℚ) / 10 ^ d2.length)
        else if pctTail r1 then some (digitsVal d1 : ℚ)
        else searchPercent cs
      | _ => if pctTail r1 then some (digitsVal d1 : ℚ) else searchPercent cs
    else searchPercent cs

/-- The five text patterns of `extract_from_llm`, tried in order; the first
pattern that matches anywhere wins and its captured number is returned. -/
def findTextPattern (text : List Char) : Option ℚ :=
  (searchColon ("confidence:").data text).orElse fun _ =>
    (searchColon ("certainty:").data text).orElse fun _ =>
      (searchColon ("probability:").data text).orElse fun _ =>
        (searchColon ("score:").data text).orElse fun _ =>
          searchPercent text

/-- The captured text is parsed as `f64` (digit strings always parse; Rust
overflows huge ones to infinity, which normalizes to the default exactly as
the huge exact rational does) and normalized. -/
def extract_from_text (d : ℚ) (text : String) : ℚ :=
  match findTextPattern text.data with
  | some v => normalize_confidence_value d (.finite v)
  | none => d

/-- The fixed field-priority list of `extract_from_llm`. -/
def confidence_fields : List String :=
  ["confidence", "_confidence", "score", "certainty", "probability"]

/-- `serde_json::Map::get` on the association-list model. -/
def lookupField : List (String × Json) → String → Option Json
  | [], _ => none
  | (k, v) :: rest, key => if k = key then some v else lookupField rest key

/-- The ordered field search: for each key in order, if the field is present
and normalizes, return it; otherwise continue with the next key. -/
def searchFields (d : ℚ) (fs : List (String × Json)) : List String → Option ℚ
  | [] => none
  | k :: ks =>
    match lookupField fs k with
    | some v =>
      match normalize_confidence d v with
      | some c => some c
      | none => searchFields d fs ks
    | none => searchFields d fs ks

def Json.asObj : Json → Option (List (String × Json))
  | .obj fs => some fs
  | _ => none

/-- The structured part of `extract_from_llm`: top-level fields first, then
the same search inside a nested `metadata` object. -/
def structSearch (d : ℚ) : Json → Option ℚ
  | .obj fs =>
    (searchFields d fs confidence_fields).orElse fun _ =>
      match (lookupField fs ("metadata")).bind Json.asObj with
      | some ms => searchFields d ms confidence_fields
      | none => none
  | _ => none

/-- `ConfidenceExtractor::extract_from_llm`: explicit fields, then nested
metadata, then text patterns over the serialized result, then the default. -/
def extract_from_llm (d : ℚ) (r : Json) : ℚ :=
  match structSearch d r with
  | some c => c
  | none => extract_from_text d (renderJson r)

/-- High-confidence vocabulary with deltas (the Rust `HashMap` literal;
iteration order is immaterial because addition commutes). -/
def high_confidence : List (String × ℚ) :=
  [("definitely", 0.15), ("certainly", 0.15), ("absolutely", 0.15),
   ("confirmed", 0.15), ("verified", 0.15), ("guaranteed", 0.15),
   ("certain", 0.12), ("sure", 0.12), ("clear", 0.10), ("obvious", 0.10),
   ("undoubtedly", 0.12), ("unquestionably", 0.12), ("conclusive", 0.12),
   ("definitive", 0.12), ("established", 0.10)]

/-- Medium-confidence vocabulary with deltas. -/
def medium_confidence : List (String × ℚ) :=
  [("probably", 0.05), ("likely", 0.05), ("appears", 0.05), ("seems", 0.05),
   ("suggests", 0.05), ("indicates", 0.05), ("mostly", 0.04),
   ("generally", 0.04), ("typically", 0.04), ("reasonable", 0.05),
   ("plausible", 0.05), ("expected", 0.04)]

/-- Low-confidence vocabulary with deltas. -/
def low_confidence : List (String × ℚ) :=
  [("possibly", -0.15), ("maybe", -0.15), ("might", -0.12), ("could", -0.10),
   ("uncertain", -0.15), ("unclear", -0.15), ("unsure", -0.15),
   ("doubt", -0.15), ("guess", -0.12), ("assume", -0.10),
   ("questionable", -0.15), ("tentative", -0.12), ("approximate", -0.08),
   ("estimated", -0.08), ("roughly", -0.08)]

/-- One pass over a vocabulary: each word contained in the text adds its
delta to the running score. -/
def applyModifiers (text : List Char) (mods : List (String × ℚ)) (score : ℚ) : ℚ :=
  mods.foldl (fun s p => if containsSub p.1.data text then s + p.2 else s) score

/-- Matcher for a pattern `(?:w1|w2)\s+(?:t1|t2|...)`: some start word at some
position, at least one whitespace character, then some target word. -/
def matchGap (starts targets : List String) : List Char → Bool
  | [] => false
  | c :: cs =>
    (starts.any fun w =>
      isPref w.data (c :: cs) &&
        (match (c :: cs).drop w.data.length with
         | x :: xs =>
           isWsChar x && targets.any fun t => isPref t.data (xs.dropWhile isWsChar)
         | [] => false))
    || matchGap starts targets cs

def hedge1 (t : List Char) : Bool := matchGap ["i", "we"] ["think", "believe", "suppose"] t

def hedge2 (t : List Char) : Bool := matchGap ["may", "might"] ["be"] t

def hedge3 (t : List Char) : Bool := matchGap ["could", "would"] ["be", "suggest"] t

def hedge4 (t : List Char) : Bool :=
  containsSub ("perhaps").data t || containsSub ("presumably").data t

/-- The four hedging patterns, in source order. -/
def hedging_patterns : List (List Char → Bool) := [hedge1, hedge2, hedge3, hedge4]

/-- `ConfidenceExtractor::extract_from_keywords`. -/
def extract_from_keywords (d : ℚ) (r : Json) : ℚ :=
  let text := ((renderJson r).toLower).data
  let s1 := applyModifiers text high_confidence d
  let s2 := applyModifiers text medium_confidence s1
  let s3 := applyModifiers text low_confidence s2
  let s4 := hedging_patterns.foldl (fun s p => if p text then s - 0.1 else s) s3
  min (max s4 0.1) 0.95

inductive ExtractionStrategy where
  | Llm
  | Keywords
  | Hybrid

structure ConfidenceConfig where
  default_confidence : ℚ
  strategy : ExtractionStrategy

/-- `ConfidenceExtractor::extract`. -/
def extract (cfg : ConfidenceConfig) (result : Json) : ℚ :=
  match cfg.strategy with
  | .Llm => extract_from_llm cfg.default_confidence result
  | .Keywords => extract_from_keywords cfg.default_confidence result
  | .Hybrid =>
    0.7 * extract_from_llm cfg.default_confidence result
      + 0.3 * extract_from_keywords cfg.default_confidence result

/-- The fallback ascending ramp of `combine`'s `weighted_avg` branch: the
i-th (1-based) confidence gets weight `i`.  The Rust total is a `usize` sum
cast to `f64`; casting commutes with the sum, so it is taken in `ℚ` here. -/
def default_ramp (l : List ℚ) : ℚ :=
  (l.enum.map fun p => p.2 * ((p.1 + 1 : ℕ) : ℚ)).sum /
    ((List.range l.length).map fun i => ((i + 1 : ℕ) : ℚ)).sum

/-- `ConfidenceAggregator::combine`.  The `min`/`max` folds start from the
head rather than from `±∞`; on a nonempty list the two agree. -/
def combine (confidences : List ℚ) (strategy : String) (weights : Option (List ℚ)) : ℚ :=
  match confidences with
  | [] => 0.5
  | c :: cs =>
    let l := c :: cs
    if strategy = "min" then cs.foldl min c
    else if strategy = "max" then cs.foldl max c
    else if strategy = "avg" then l.sum / (l.length : ℚ)
    else if strategy = "weighted_avg" then
      match weights with
      | some w =>
        if w.length = l.length then
          let wsum := ((l.zip w).map fun p => p.1 * p.2).sum
          let tw := w.sum
          if 0 < tw then wsum / tw else default_ramp l
        else default_ramp l
      | none => default_ramp l
    else if strategy = "consensus" then
      let mean := l.sum / (l.length : ℚ)
      let variance := (l.map fun x => (x - mean) ^ 2).sum / (l.length : ℚ)
      mean * (1 - min (variance * 2) 0.5)
    else l.sum / (l.length : ℚ)

/-- `ConfidenceAggregator::from_consistency`.  `serde_json::to_string` on a
`Value` cannot fail, so the `unwrap_or_else` fallback (which renders the same
string) is immaterial. -/
def from_consistency (results : List Json) : ℚ :=
  if results.length < 2 then 0.5
  else
    let strs := results.map renderJson
    let unique_count := strs.dedup.length
    if unique_count = 1 then 0.95
    else 0.5 + (1 - ((unique_count - 1 : ℕ) : ℚ) / ((results.length - 1 : ℕ) : ℚ)) * 0.45

/-- `ConfidenceAggregator::calibrate`. -/
def calibrate (raw_confidence bias scale : ℚ) : ℚ :=
  min (max ((raw_confidence - 0.5) * scale + 0.5 - bias) 0) 1

/-! ## Specification-side definitions used to state the claims -/

/-- Sum of the deltas of the vocabulary entries whose word occurs in the
text; each distinct vocabulary word is counted exactly once, however many
times it occurs. -/
def vocab_sum (vocab : List (String × ℚ)) (text : List Char) : ℚ :=
  ((vocab.filter fun p => containsSub p.1.data text).map fun p => p.2).sum

/-- Number of hedging patterns that match the text. -/
def hedge_count (text : List Char) : ℕ :=
  (hedging_patterns.filter fun p => p text).length

/-- Modelled from the claim wording (not the source): the string rule with
exactly ONE trailing percent sign stripped, for comparison against the
source's `trim_end_matches('%')`, which strips the whole trailing run. -/
def claim_normalize_string (d : ℚ) (s : String) : Option ℚ :=
  let t := trimWs s.data
  let t2 := match t.reverse with
    | '%' :: r => r.reverse
    | _ => t
  (parseF64 t2).map (normalize_confidence_value d)

/-- Whether a JSON value is a number or a string (the only shapes
`normalize_confidence` accepts). -/
def isNumOrStr : Json → Bool
  | .num _ => true
  | .str _ => true
  | _ => false

/-- Every priority field present in the object holds a non-number,
non-string value. -/
def fieldsNonScalar (fs : List (String × Json)) : Bool :=
  confidence_fields.all fun k =>
    match lookupField fs k with
    | some v => !(isNumOrStr v)
    | none => true

/-- `fieldsNonScalar` for the top-level object and for its nested
`metadata` object, when present. -/
def priorityFieldsNonScalar (fs : List (String × Json)) : Bool :=
  fieldsNonScalar fs &&
    (match (lookupField fs ("metadata")).bind Json.asObj with
     | some ms => fieldsNonScalar ms
     | none => true)

/-! ## Helper lemmas about list folds and sums -/

theorem foldl_min_mem (cs : List ℚ) : ∀ c : ℚ, cs.foldl min c ∈ c :: cs := by
  induction cs with
  | nil => intro c; simp
  | cons d ds ih =>
    intro c
    rw [List.foldl_cons]
    rcases List.mem_cons.mp (ih (min c d)) with h1 | h1
    · rw [h1]
      rcases min_choice c d with hc | hc <;> rw [hc] <;> simp
    · simp [h1]

theorem foldl_min_le (cs : List ℚ) : ∀ c x : ℚ, x ∈ c :: cs → cs.foldl min c ≤ x := by
  induction cs with
  | nil =>
    intro c x hx
    rw [List.mem_singleton] at hx
    simp [hx]
  | cons d ds ih =>
    intro c x hx
    rw [List.foldl_cons]
    have hhead : ds.foldl min (min c d) ≤ min c d :=
      ih (min c d) (min c d) (List.mem_cons_self _ _)
    rcases List.mem_cons.mp hx with h1 | h1
    · rw [h1]; exact le_trans hhead (min_le_left c d)
    · rcases List.mem_cons.mp h1 with h2 | h2
      · rw [h2]; exact le_trans hhead (min_le_right c d)
      · exact ih (min c d) x (List.mem_cons_of_mem _ h2)

theorem foldl_max_mem (cs : List ℚ) : ∀ c : ℚ, cs.foldl max c ∈ c :: cs := by
  induction cs with
  | nil => intro c; simp
  | cons d ds ih =>
    intro c
    rw [List.foldl_cons]
    rcases List.mem_cons.mp (ih (max c d)) with h1 | h1
    · rw [h1]
      rcases max_choice c d with hc | hc <;> rw [hc] <;> simp
    · simp [h1]

theorem foldl_max_ge (cs : List ℚ) : ∀ c x : ℚ, x ∈ c :: cs → x ≤ cs.foldl max c := by
  induction cs with
  | nil =>
    intro c x hx
    rw [List.mem_singleton] at hx
    simp [hx]
  | cons d ds ih =>
    intro c x hx
    rw [List.foldl_cons]
    have hhead : max c d ≤ ds.foldl max (max c d) :=
      ih (max c d) (max c d) (List.mem_cons_self _ _)
    rcases List.mem_cons.mp hx with h1 | h1
    · rw [h1]; exact le_trans (le_max_left c d) hhead
    · rcases List.mem_cons.mp h1 with h2 | h2
      · rw [h2]; exact le_trans (le_max_right c d) hhead
      · exact ih (max c d) x (List.mem_cons_of_mem _ h2)

theorem sum_le_length (l : List ℚ) (h : ∀ x ∈ l, x ≤ 1) : l.sum ≤ (l.length : ℚ) := by
  induction l with
  | nil => simp
  | cons a as ih =>
    have ha := h a (List.mem_cons_self _ _)
    have has := ih fun x hx => h x (List.mem_cons_of_mem _ hx)
    simp only [List.sum_cons, List.length_cons]
    push_cast
    linarith

theorem avg_bounds (c : ℚ) (cs : List ℚ) (h : ∀ x ∈ c :: cs, 0 ≤ x ∧ x ≤ 1) :
    0 ≤ (c :: cs).sum / (((c :: cs).length : ℕ) : ℚ) ∧
      (c :: cs).sum / (((c :: cs).length : ℕ) : ℚ) ≤ 1 := by
  have hlen : (0 : ℚ) < (((c :: cs).length : ℕ) : ℚ) := by
    rw [Nat.cast_pos]
    simp
  constructor
  · exact div_nonneg (List.sum_nonneg fun x hx => (h x hx).1) (le_of_lt hlen)
  · rw [div_le_one hlen]
    exact sum_le_length _ fun x hx => (h x hx).2

theorem zip_mul_sum_bounds :
    ∀ (cs ws : List ℚ), (∀ x ∈ cs, 0 ≤ x ∧ x ≤ 1) → (∀ x ∈ ws, 0 ≤ x) →
      0 ≤ ((cs.zip ws).map fun p => p.1 * p.2).sum ∧
        ((cs.zip ws).map fun p => p.1 * p.2).sum ≤ ws.sum := by
  intro cs
  induction cs with
  | nil =>
    intro ws _ hw
    constructor
    · simp
    · simpa using List.sum_nonneg hw
  | cons c cs ih =>
    intro ws hc hw
    cases ws with
    | nil => simp
    | cons w ws =>
      have hcw := hc c (List.mem_cons_self _ _)
      have hww := hw w (List.mem_cons_self _ _)
      have hrec := ih ws (fun x hx => hc x (List.mem_cons_of_mem _ hx))
        (fun x hx => hw x (List.mem_cons_of_mem _ hx))
      have h1 : 0 ≤ c * w := mul_nonneg hcw.1 hww
      have h2 : c * w ≤ w := mul_le_of_le_one_left hww hcw.2
      simp only [List.zip_cons_cons, List.map_cons, List.sum_cons]
      constructor
      · linarith [hrec.1]
      · linarith [hrec.2]

theorem enumFrom_ramp_bounds :
    ∀ (l : List ℚ) (n : ℕ), (∀ x ∈ l, 0 ≤ x ∧ x ≤ 1) →
      0 ≤ ((l.enumFrom n).map fun p => p.2 * ((p.1 + 1 : ℕ) : ℚ)).sum ∧
        ((l.enumFrom n).map fun p => p.2 * ((p.1 + 1 : ℕ) : ℚ)).sum ≤
          ((List.range l.length).map fun i => ((n + i + 1 : ℕ) : ℚ)).sum := by
  intro l
  induction l with
  | nil => intro n _; simp
  | cons a as ih =>
    intro n h
    have ha := h a (List.mem_cons_self _ _)
    have hrec := ih (n + 1) fun x hx => h x (List.mem_cons_of_mem _ hx)
    have hcast : (0 : ℚ) ≤ ((n + 1 : ℕ) : ℚ) := Nat.cast_nonneg _
    have h1 : 0 ≤ a * ((n + 1 : ℕ) : ℚ) := mul_nonneg ha.1 hcast
    have h2 : a * ((n + 1 : ℕ) : ℚ) ≤ ((n + 1 : ℕ) : ℚ) :=
      mul_le_of_le_one_left hcast ha.2
    have hcomp : ((fun i => ((n + i + 1 : ℕ) : ℚ)) ∘ Nat.succ) =
        fun i => ((n + 1 + i + 1 : ℕ) : ℚ) := by
      funext i
      simp only [Function.comp_apply]
      congr 1
      omega
    simp only [List.enumFrom_cons, List.map_cons, List.sum_cons, List.length_cons,
      List.range_succ_eq_map, List.map_map]
    rw [hcomp, Nat.add_zero]
    constructor
    · linarith [hrec.1]
    · linarith [hrec.2]

theorem rampDen_pos (m : ℕ) :
    0 < ((List.range (m + 1)).map fun i => ((i + 1 : ℕ) : ℚ)).sum := by
  have hnn : 0 ≤ ((List.map Nat.succ (List.range m)).map fun i => ((i + 1 : ℕ) : ℚ)).sum :=
    List.sum_nonneg fun x hx => by
      rcases List.mem_map.mp hx with ⟨i, _, rfl⟩
      exact Nat.cast_nonneg _
  rw [List.range_succ_eq_map, List.map_cons, List.sum_cons]
  have : ((0 + 1 : ℕ) : ℚ) = 1 := by norm_num
  rw [this]
  linarith

/-! ## Range lemmas for the extraction pipeline -/

theorem normalize_value_bounds (d : ℚ) (hd0 : 0 ≤ d) (hd1 : d ≤ 1) (v : FVal) :
    0 ≤ normalize_confidence_value d v ∧ normalize_confidence_value d v ≤ 1 := by
  cases v with
  | finite q =>
    simp only [normalize_confidence_value]
    split_ifs with h1 h2
    · exact h1
    · constructor
      · exact div_nonneg (by linarith [h2.1]) (by norm_num)
      · exact (div_le_one (by norm_num : (0 : ℚ) < 100)).mpr h2.2
    · exact ⟨hd0, hd1⟩
  | posInf => exact ⟨hd0, hd1⟩
  | negInf => exact ⟨hd0, hd1⟩
  | nan => exact ⟨hd0, hd1⟩

theorem normalize_json_bounds (d : ℚ) (hd0 : 0 ≤ d) (hd1 : d ≤ 1) (v : Json) (q : ℚ)
    (h : normalize_confidence d v = some q) : 0 ≤ q ∧ q ≤ 1 := by
  cases v with
  | num x =>
    simp only [normalize_confidence, Option.some.injEq] at h
    exact h ▸ normalize_value_bounds d hd0 hd1 (.finite x)
  | str s =>
    simp only [normalize_confidence] at h
    rcases Option.map_eq_some'.mp h with ⟨fv, _, hq⟩
    exact hq ▸ normalize_value_bounds d hd0 hd1 fv
  | null => simp [normalize_confidence] at h
  | bool b => simp [normalize_confidence] at h
  | arr xs => simp [normalize_confidence] at h
  | obj fs => simp [normalize_confidence] at h

theorem searchFields_bounds (d : ℚ) (hd0 : 0 ≤ d) (hd1 : d ≤ 1) (fs : List (String × Json)) :
    ∀ (ks : List String) (q : ℚ), searchFields d fs ks = some q → 0 ≤ q ∧ q ≤ 1 := by
  intro ks
  induction ks with
  | nil => intro q h; simp [searchFields] at h
  | cons k ks ih =>
    intro q h
    rw [searchFields] at h
    split at h
    next v hl =>
      split at h
      next c hn =>
        simp only [Option.some.injEq] at h
        exact h ▸ normalize_json_bounds d hd0 hd1 v c hn
      next hn => exact ih q h
    next hl => exact ih q h

theorem structSearch_bounds (d : ℚ) (hd0 : 0 ≤ d) (hd1 : d ≤ 1) (r : Json) (q : ℚ)
    (h : structSearch d r = some q) : 0 ≤ q ∧ q ≤ 1 := by
  cases r with
  | obj fs =>
    rw [structSearch] at h
    rcases ht : searchFields d fs confidence_fields with _ | c
    · rw [ht] at h
      have h2 : (match (lookupField fs ("metadata")).bind Json.asObj with
          | some ms => searchFields d ms confidence_fields
          | none => none) = some q := h
      rcases hm : (lookupField fs ("metadata")).bind Json.asObj with _ | ms
      · rw [hm] at h2
        exact absurd h2 (by simp)
      · rw [hm] at h2
        exact searchFields_bounds d hd0 hd1 ms confidence_fields q h2
    · rw [ht] at h
      have h2 : some c = some q := h
      simp only [Option.some.injEq] at h2
      exact h2 ▸ searchFields_bounds d hd0 hd1 fs confidence_fields c ht
  | null => simp [structSearch] at h
  | bool b => simp [structSearch] at h
  | num x => simp [structSearch] at h
  | str s => simp [structSearch] at h
  | arr xs => simp [structSearch] at h

theorem extract_text_bounds (d : ℚ) (hd0 : 0 ≤ d) (hd1 : d ≤ 1) (text : String) :
    0 ≤ extract_from_text d text ∧ extract_from_text d text ≤ 1 := by
  unfold extract_from_text
  rcases h : findTextPattern text.data with _ | v
  · exact ⟨hd0, hd1⟩
  · exact normalize_value_bounds d hd0 hd1 (.finite v)

theorem extract_llm_bounds (d : ℚ) (hd0 : 0 ≤ d) (hd1 : d ≤ 1) (r : Json) :
    0 ≤ extract_from_llm d r ∧ extract_from_llm d r ≤ 1 := by
  unfold extract_from_llm
  rcases h : structSearch d r with _ | c
  · exact extract_text_bounds d hd0 hd1 (renderJson r)
  · exact structSearch_bounds d hd0 hd1 r c h

theorem keywords_range (d : ℚ) (r : Json) :
    0.1 ≤ extract_from_keywords d r ∧ extract_from_keywords d r ≤ 0.95 := by
  unfold extract_from_keywords
  constructor
  · exact le_min (le_max_right _ _) (by norm_num)
  · exact min_le_right _ _

theorem extract_bounds (cfg : ConfidenceConfig) (r : Json)
    (hd0 : 0 ≤ cfg.default_confidence) (hd1 : cfg.default_confidence ≤ 1) :
    0 ≤ extract cfg r ∧ extract cfg r ≤ 1 := by
  unfold extract
  rcases cfg.strategy with _ | _ | _
  · exact extract_llm_bounds _ hd0 hd1 r
  · have h := keywords_range cfg.default_confidence r
    constructor <;> [linarith [h.1]; linarith [h.2]]
  · have h1 := extract_llm_bounds cfg.default_confidence hd0 hd1 r
    have h2 := keywords_range cfg.default_confidence r
    constructor
    · have := mul_nonneg (by norm_num : (0 : ℚ) ≤ 0.7) h1.1
      have := mul_nonneg (by norm_num : (0 : ℚ) ≤ 0.3) (le_trans (by norm_num) h2.1)
      linarith
    · nlinarith [h1.2, h2.2]

/-! ## Branch equations for `combine` and `from_consistency` -/

theorem combine_nil (strat : String) (w : Option (List ℚ)) : combine [] strat w = 0.5 := rfl

theorem combine_min_eq (c : ℚ) (cs : List ℚ) (w : Option (List ℚ)) :
    combine (c :: cs) ("min") w = cs.foldl min c := by
  simp [combine]

theorem combine_max_eq (c : ℚ) (cs : List ℚ) (w : Option (List ℚ)) :
    combine (c :: cs) ("max") w = cs.foldl max c := by
  simp [combine]

theorem combine_avg_eq (c : ℚ) (cs : List ℚ) (w : Option (List ℚ)) :
    combine (c :: cs) ("avg") w = (c :: cs).sum / (((c :: cs).length : ℕ) : ℚ) := by
  simp [combine]

theorem combine_wavg_none (c : ℚ) (cs : List ℚ) :
    combine (c :: cs) ("weighted_avg") none = default_ramp (c :: cs) := by
  simp [combine]

theorem combine_wavg_pos (c : ℚ) (cs : List ℚ) (ws : List ℚ)
    (hlen : ws.length = (c :: cs).length) (hpos : 0 < ws.sum) :
    combine (c :: cs) ("weighted_avg") (some ws) =
      (((c :: cs).zip ws).map fun p => p.1 * p.2).sum / ws.sum := by
  simp [combine, hlen, hpos]

theorem combine_wavg_nonpos (c : ℚ) (cs : List ℚ) (ws : List ℚ)
    (hlen : ws.length = (c :: cs).length) (hpos : ¬0 < ws.sum) :
    combine (c :: cs) ("weighted_avg") (some ws) = default_ramp (c :: cs) := by
  simp [combine, hlen, hpos]

theorem combine_wavg_mismatch (c : ℚ) (cs : List ℚ) (ws : List ℚ)
    (hlen : ws.length ≠ (c :: cs).length) :
    combine (c :: cs) ("weighted_avg") (some ws) = default_ramp (c :: cs) := by
  have hlen2 : ws.length ≠ cs.length + 1 := by simpa using hlen
  simp [combine, hlen2]

theorem combine_consensus_eq (c : ℚ) (cs : List ℚ) (w : Option (List ℚ)) :
    combine (c :: cs) ("consensus") w =
      ((c :: cs).sum / (((c :: cs).length : ℕ) : ℚ)) *
        (1 - min ((((c :: cs).map fun x =>
            (x - (c :: cs).sum / (((c :: cs).length : ℕ) : ℚ)) ^ 2).sum /
              (((c :: cs).length : ℕ) : ℚ)) * 2) 0.5) := by
  simp [combine]

theorem combine_other_eq (c : ℚ) (cs : List ℚ) (strat : String) (w : Option (List ℚ))
    (h1 : strat ≠ "min") (h2 : strat ≠ "max") (h3 : strat ≠ "avg")
    (h4 : strat ≠ "weighted_avg") (h5 : strat ≠ "consensus") :
    combine (c :: cs) strat w = (c :: cs).sum / (((c :: cs).length : ℕ) : ℚ) := by
  simp [combine, h1, h2, h3, h4, h5]

theorem from_consistency_short (results : List Json) (h : results.length < 2) :
    from_consistency results = 0.5 := by
  simp [from_consistency, h]

theorem from_consistency_perfect (results : List Json) (h : ¬results.length < 2)
    (hu : (results.map renderJson).dedup.length = 1) : from_consistency results = 0.95 := by
  simp [from_consistency, h, hu]

theorem from_consistency_formula (results : List Json) (h : ¬results.length < 2)
    (hu : (results.map renderJson).dedup.length ≠ 1) :
    from_consistency results =
      0.5 + (1 - (((results.map renderJson).dedup.length - 1 : ℕ) : ℚ) /
        ((results.length - 1 : ℕ) : ℚ)) * 0.45 := by
  simp [from_consistency, h, hu]

theorem unique_count_bounds (results : List Json) (h2 : 2 ≤ results.length) :
    1 ≤ (results.map renderJson).dedup.length ∧
      (results.map renderJson).dedup.length ≤ results.length := by
  constructor
  · by_contra hcon
    push_neg at hcon
    have h0 : (results.map renderJson).dedup.length = 0 := by omega
    have hnil := (List.dedup_eq_nil _).mp (List.length_eq_zero.mp h0)
    have hlen : results.length = 0 := by
      have hx := congrArg List.length hnil
      simpa using hx
    omega
  · have h := (List.dedup_sublist (results.map renderJson)).length_le
    simpa using h

/-! ## Range lemmas for the aggregator -/

theorem default_ramp_bounds (c : ℚ) (cs : List ℚ) (h : ∀ x ∈ c :: cs, 0 ≤ x ∧ x ≤ 1) :
    0 ≤ default_ramp (c :: cs) ∧ default_ramp (c :: cs) ≤ 1 := by
  unfold default_ramp
  have hb := enumFrom_ramp_bounds (c :: cs) 0 h
  have henum : (c :: cs).enum = (c :: cs).enumFrom 0 := rfl
  have hden0 : ((List.range (c :: cs).length).map fun i => ((0 + i + 1 : ℕ) : ℚ)) =
      (List.range (c :: cs).length).map fun i => ((i + 1 : ℕ) : ℚ) := by
    apply List.map_congr_left
    intro i _
    congr 1
    omega
  have hdenpos : 0 < ((List.range (c :: cs).length).map fun i => ((i + 1 : ℕ) : ℚ)).sum := by
    have hl : (c :: cs).length = cs.length + 1 := rfl
    rw [hl]
    exact rampDen_pos cs.length
  constructor
  · apply div_nonneg _ (le_of_lt hdenpos)
    rw [henum]
    exact hb.1
  · rw [div_le_one hdenpos, henum]
    calc ((c :: cs).enumFrom 0 |>.map fun p => p.2 * ((p.1 + 1 : ℕ) : ℚ)).sum ≤
        ((List.range (c :: cs).length).map fun i => ((0 + i + 1 : ℕ) : ℚ)).sum := hb.2
      _ = ((List.range (c :: cs).length).map fun i => ((i + 1 : ℕ) : ℚ)).sum := by rw [hden0]

theorem combine_bounds (confs : List ℚ) (strat : String) (w : Option (List ℚ))
    (hc : ∀ x ∈ confs, 0 ≤ x ∧ x ≤ 1)
    (hw : ∀ ws x, w = some ws → x ∈ ws → 0 ≤ x) :
    0 ≤ combine confs strat w ∧ combine confs strat w ≤ 1 := by
  cases confs with
  | nil =>
    rw [combine_nil]
    norm_num
  | cons c cs =>
    by_cases h1 : strat = "min"
    · subst h1
      rw [combine_min_eq]
      exact hc _ (foldl_min_mem cs c)
    by_cases h2 : strat = "max"
    · subst h2
      rw [combine_max_eq]
      exact hc _ (foldl_max_mem cs c)
    by_cases h3 : strat = "avg"
    · subst h3
      rw [combine_avg_eq]
      exact avg_bounds c cs hc
    by_cases h4 : strat = "weighted_avg"
    · subst h4
      cases w with
      | none =>
        rw [combine_wavg_none]
        exact default_ramp_bounds c cs hc
      | some ws =>
        by_cases hlen : ws.length = (c :: cs).length
        · by_cases hpos : 0 < ws.sum
          · rw [combine_wavg_pos c cs ws hlen hpos]
            have hwnn : ∀ x ∈ ws, 0 ≤ x := fun x hx => hw ws x rfl hx
            have hz := zip_mul_sum_bounds (c :: cs) ws hc hwnn
            constructor
            · exact div_nonneg hz.1 (le_of_lt hpos)
            · rw [div_le_one hpos]
              exact hz.2
          · rw [combine_wavg_nonpos c cs ws hlen hpos]
            exact default_ramp_bounds c cs hc
        · rw [combine_wavg_mismatch c cs ws hlen]
          exact default_ramp_bounds c cs hc
    by_cases h5 : strat = "consensus"
    · subst h5
      rw [combine_consensus_eq]
      have hm := avg_bounds c cs hc
      have hvar : 0 ≤ ((c :: cs).map fun x =>
          (x - (c :: cs).sum / (((c :: cs).length : ℕ) : ℚ)) ^ 2).sum /
            (((c :: cs).length : ℕ) : ℚ) := by
        apply div_nonneg _ (Nat.cast_nonneg _)
        apply List.sum_nonneg
        intro x hx
        rcases List.mem_map.mp hx with ⟨y, _, rfl⟩
        positivity
      have hmin1 : 0 ≤ min ((((c :: cs).map fun x =>
          (x - (c :: cs).sum / (((c :: cs).length : ℕ) : ℚ)) ^ 2).sum /
            (((c :: cs).length : ℕ) : ℚ)) * 2) 0.5 :=
        le_min (by linarith) (by norm_num)
      have hmin2 : min ((((c :: cs).map fun x =>
          (x - (c :: cs).sum / (((c :: cs).length : ℕ) : ℚ)) ^ 2).sum /
            (((c :: cs).length : ℕ) : ℚ)) * 2) 0.5 ≤ 0.5 := min_le_right _ _
      constructor
      · exact mul_nonneg hm.1 (by linarith)
      · exact mul_le_one₀ hm.2 (by linarith) (by linarith)
    rw [combine_other_eq c cs strat w h1 h2 h3 h4 h5]
    exact avg_bounds c cs hc

theorem from_consistency_bounds (results : List Json) :
    0 ≤ from_consistency results ∧ from_consistency results ≤ 1 := by
  by_cases h : results.length < 2
  · rw [from_consistency_short results h]
    norm_num
  by_cases hu : (results.map renderJson).dedup.length = 1
  · rw [from_consistency_perfect results h hu]
    norm_num
  rw [from_consistency_formula results h hu]
  have h2 : 2 ≤ results.length := by omega
  obtain ⟨hu1, hun⟩ := unique_count_bounds results h2
  have hb1 : (1 : ℚ) ≤ ((results.length - 1 : ℕ) : ℚ) := by
    have hx : 1 ≤ results.length - 1 := by omega
    exact_mod_cast hx
  have hab : (((results.map renderJson).dedup.length - 1 : ℕ) : ℚ) ≤
      ((results.length - 1 : ℕ) : ℚ) := by
    have hx : (results.map renderJson).dedup.length - 1 ≤ results.length - 1 := by omega
    exact_mod_cast hx
  have ha0 : (0 : ℚ) ≤ (((results.map renderJson).dedup.length - 1 : ℕ) : ℚ) :=
    Nat.cast_nonneg _
  have hbpos : (0 : ℚ) < ((results.length - 1 : ℕ) : ℚ) := by linarith
  have hr1 : (((results.map renderJson).dedup.length - 1 : ℕ) : ℚ) /
      ((results.length - 1 : ℕ) : ℚ) ≤ 1 := (div_le_one hbpos).mpr hab
  have hr0 : 0 ≤ (((results.map renderJson).dedup.length - 1 : ℕ) : ℚ) /
      ((results.length - 1 : ℕ) : ℚ) := div_nonneg ha0 (le_of_lt hbpos)
  constructor <;> nlinarith

theorem calibrate_bounds (raw bias scale : ℚ) :
    0 ≤ calibrate raw bias scale ∧ calibrate raw bias scale ≤ 1 := by
  unfold calibrate
  constructor
  · exact le_min (le_max_right _ _) (by norm_num)
  · exact min_le_right _ _

/-! ## Helper lemmas for the keyword scorer and the structured search -/

theorem applyModifiers_eq (text : List Char) :
    ∀ (mods : List (String × ℚ)) (s : ℚ),
      applyModifiers text mods s = s + vocab_sum mods text := by
  intro mods
  induction mods with
  | nil =>
    intro s
    simp [applyModifiers, vocab_sum]
  | cons p ps ih =>
    intro s
    have hstep : applyModifiers text (p :: ps) s =
        applyModifiers text ps (if containsSub p.1.data text then s + p.2 else s) := rfl
    rw [hstep, ih]
    cases hb : containsSub p.1.data text with
    | true =>
      simp [vocab_sum, List.filter_cons, hb]
      ring
    | false =>
      simp [vocab_sum, List.filter_cons, hb]

theorem hedge_fold_eq (text : List Char) :
    ∀ (ps : List (List Char → Bool)) (s : ℚ),
      ps.foldl (fun s p => if p text then s - 0.1 else s) s =
        s - 0.1 * (((ps.filter fun p => p text).length : ℕ) : ℚ) := by
  intro ps
  induction ps with
  | nil =>
    intro s
    simp
  | cons p ps ih =>
    intro s
    rw [List.foldl_cons, ih]
    by_cases hp : p text = true
    · rw [if_pos hp, List.filter_cons, if_pos hp, List.length_cons]
      push_cast
      ring
    · rw [if_neg hp, List.filter_cons, if_neg hp]

theorem searchFields_nil (d : ℚ) (fs : List (String × Json)) :
    searchFields d fs [] = none := rfl

theorem orElse_none (x : Option ℚ) : (x.orElse fun _ => none) = x := by
  cases x <;> rfl

theorem searchFields_cons (d : ℚ) (fs : List (String × Json)) (k : String) (ks : List String) :
    searchFields d fs (k :: ks) =
      ((lookupField fs k).bind (normalize_confidence d)).orElse fun _ =>
        searchFields d fs ks := by
  rw [searchFields]
  rcases hl : lookupField fs k with _ | v
  · rfl
  · show (match normalize_confidence d v with
        | some c => some c
        | none => searchFields d fs ks) =
      (normalize_confidence d v).orElse fun _ => searchFields d fs ks
    rcases hn : normalize_confidence d v with _ | c <;> rfl

theorem normalize_nonscalar (d : ℚ) (v : Json) (h : isNumOrStr v = false) :
    normalize_confidence d v = none := by
  cases v with
  | num q => exact absurd h (by simp [isNumOrStr])
  | str s => exact absurd h (by simp [isNumOrStr])
  | null => rfl
  | bool b => rfl
  | arr xs => rfl
  | obj fs => rfl

theorem searchFields_none_aux (d : ℚ) (fs : List (String × Json)) :
    ∀ ks : List String,
      (ks.all fun k =>
        match lookupField fs k with
        | some v => !(isNumOrStr v)
        | none => true) = true →
      searchFields d fs ks = none := by
  intro ks
  induction ks with
  | nil => intro _; rfl
  | cons k ks ih =>
    intro h
    rw [List.all_cons, Bool.and_eq_true] at h
    rw [searchFields]
    split
    next v hl =>
      split
      next c hn =>
        have hns : isNumOrStr v = false := by
          have hh := h.1
          rw [hl] at hh
          simpa using hh
        rw [normalize_nonscalar d v hns] at hn
        exact absurd hn (by simp)
      next hn => exact ih h.2
    next hl => exact ih h.2

theorem structSearch_none_of_nonscalar (d : ℚ) (fs : List (String × Json))
    (h : priorityFieldsNonScalar fs = true) : structSearch d (.obj fs) = none := by
  rw [priorityFieldsNonScalar, Bool.and_eq_true] at h
  have htop := searchFields_none_aux d fs confidence_fields h.1
  have h2 := h.2
  rw [structSearch, htop]
  have hgoal : (match (lookupField fs ("metadata")).bind Json.asObj with
      | some ms => searchFields d ms confidence_fields
      | none => none) = none := by
    split
    next ms hm =>
      apply searchFields_none_aux
      rw [hm] at h2
      exact h2
    next hm => rfl
  exact hgoal

/-! ## Claim theorems -/

/-- C1 counterexample: with every confidence input in `[0,1]` but an
arbitrary (here partly negative) weight vector of matching length and
positive total, `weighted_avg` returns `2`, outside `[0,1]`; the claim as
stated (weights arbitrary) is false. -/
theorem C1_counterexample :
    combine [0, 1] ("weighted_avg") (some [-1, 2]) = 2 ∧
      ¬combine [0, 1] ("weighted_avg") (some [-1, 2]) ≤ 1 := by
  decide

/-- C1 (amended): for every call to `extract`, `combine`, `from_consistency`
and `calibrate` in which every confidence input and the configured default
lie in `[0,1]` and all supplied weights are nonnegative, the returned value
lies in `[0,1]`. -/
theorem C1_range (cfg : ConfidenceConfig) (r : Json) (confs : List ℚ) (strat : String)
    (w : Option (List ℚ)) (results : List Json) (raw bias scale : ℚ)
    (hd0 : 0 ≤ cfg.default_confidence) (hd1 : cfg.default_confidence ≤ 1)
    (hc : ∀ x ∈ confs, 0 ≤ x ∧ x ≤ 1)
    (hw : ∀ ws x, w = some ws → x ∈ ws → 0 ≤ x) :
    (0 ≤ extract cfg r ∧ extract cfg r ≤ 1) ∧
    (0 ≤ combine confs strat w ∧ combine confs strat w ≤ 1) ∧
    (0 ≤ from_consistency results ∧ from_consistency results ≤ 1) ∧
    (0 ≤ calibrate raw bias scale ∧ calibrate raw bias scale ≤ 1) :=
  ⟨extract_bounds cfg r hd0 hd1, combine_bounds confs strat w hc hw,
   from_consistency_bounds results, calibrate_bounds raw bias scale⟩

/-- C1 witness: the amended range theorem applied at concrete inputs. -/
theorem C1_witness :
    (0 ≤ extract ⟨0.5, .Hybrid⟩ (Json.str ("definitely maybe")) ∧
      extract ⟨0.5, .Hybrid⟩ (Json.str ("definitely maybe")) ≤ 1) ∧
    (0 ≤ combine [0.2, 0.8] ("consensus") none ∧
      combine [0.2, 0.8] ("consensus") none ≤ 1) ∧
    (0 ≤ from_consistency [Json.null] ∧ from_consistency [Json.null] ≤ 1) ∧
    (0 ≤ calibrate 0.8 0.05 1 ∧ calibrate 0.8 0.05 1 ≤ 1) :=
  C1_range ⟨0.5, .Hybrid⟩ (Json.str ("definitely maybe")) [0.2, 0.8] ("consensus") none
    [Json.null] 0.8 0.05 1 (by decide) (by decide) (by decide)
    (fun ws x h hx => nomatch h)

/-- C2 counterexample: the source strips the whole trailing run of percent
signs (`trim_end_matches('%')` removes suffixes repeatedly), not just one:
on the string `73` followed by two percent signs the engine parses `73` and
returns `0.73`, while the claim's strip-one-percent rule leaves `73%`, which
does not parse, and so yields no value. -/
theorem C2_counterexample :
    normalize_confidence 0.5 (.str ("73%%")) = some 0.73 ∧
      claim_normalize_string 0.5 ("73%%") = none := by
  decide

/-- C2 (amended): numeric input in `[0,1]` is returned as is, in `(1,100]`
it is divided by 100, otherwise the default is returned; string input is
trimmed, stripped of ALL trailing percent signs and parsed as a float, the
numeric rule then applying; unparsable strings yield no value; and
`normalize(0.42) = 0.42`, `normalize(85) = 0.85`, `normalize("73%") = 0.73`,
`normalize(150)` falls back to the configured default. -/
theorem C2_normalize (d q : ℚ) (s : String) :
    (normalize_confidence d (.num q) =
      some (if 0 ≤ q ∧ q ≤ 1 then q else if 1 < q ∧ q ≤ 100 then q / 100 else d)) ∧
    (normalize_confidence d (.str s) =
      (parseF64 (stripPct (trimWs s.data))).map (normalize_confidence_value d)) ∧
    normalize_confidence d (.num 0.42) = some 0.42 ∧
    normalize_confidence d (.num 85) = some 0.85 ∧
    normalize_confidence d (.str ("73%")) = some 0.73 ∧
    normalize_confidence d (.num 150) = some d ∧
    normalize_confidence d (.str ("not a number")) = none :=
  ⟨rfl, rfl, rfl, rfl, rfl, rfl, rfl⟩

/-- C3: with the Hybrid strategy, `extract` equals 0.7 times the
structured-or-text extraction plus 0.3 times the keyword extraction. -/
theorem C3_hybrid (d : ℚ) (r : Json) :
    extract ⟨d, .Hybrid⟩ r =
      0.7 * extract_from_llm d r + 0.3 * extract_from_keywords d r := rfl

/-- C4: the keyword score is the default plus the delta of each distinct
vocabulary word contained in the lowercased rendering (each word counted
once however often it occurs), minus 0.1 per matching hedging pattern,
clamped to `[0.10, 0.95]`. -/
theorem C4_keyword_score (d : ℚ) (r : Json) :
    extract_from_keywords d r =
      min (max (d + vocab_sum high_confidence ((renderJson r).toLower).data
            + vocab_sum medium_confidence ((renderJson r).toLower).data
            + vocab_sum low_confidence ((renderJson r).toLower).data
            - 0.1 * ((hedge_count ((renderJson r).toLower).data : ℕ) : ℚ)) 0.1) 0.95 := by
  simp only [extract_from_keywords, hedge_count]
  rw [applyModifiers_eq, applyModifiers_eq, applyModifiers_eq, hedge_fold_eq]

/-- C5: the structured extractor searches the top-level fields in the fixed
order confidence, _confidence, score, certainty, probability, returning the
first that normalizes; the metadata object is searched (in the same order)
only when the top-level search yields nothing, so a top-level confidence
field always beats one nested under metadata. -/
theorem C5_priority (d : ℚ) (fs : List (String × Json)) (v : Json) (c : ℚ) :
    (searchFields d fs confidence_fields =
      (((lookupField fs ("confidence")).bind (normalize_confidence d)).orElse fun _ =>
        (((lookupField fs ("_confidence")).bind (normalize_confidence d)).orElse fun _ =>
          (((lookupField fs ("score")).bind (normalize_confidence d)).orElse fun _ =>
            (((lookupField fs ("certainty")).bind (normalize_confidence d)).orElse fun _ =>
              (lookupField fs ("probability")).bind (normalize_confidence d)))))) ∧
    (lookupField fs ("confidence") = some v → normalize_confidence d v = some c →
      extract_from_llm d (.obj fs) = c) ∧
    (searchFields d fs confidence_fields = none →
      structSearch d (.obj fs) =
        match (lookupField fs ("metadata")).bind Json.asObj with
        | some ms => searchFields d ms confidence_fields
        | none => none) := by
  refine ⟨?_, ?_, ?_⟩
  · simp only [confidence_fields, searchFields_cons, searchFields_nil, orElse_none]
  · intro hv hn
    have htop : searchFields d fs confidence_fields = some c := by
      have hcf : confidence_fields =
          ("confidence") :: ["_confidence", "score", "certainty", "probability"] := rfl
      rw [hcf, searchFields_cons, hv]
      show (normalize_confidence d v).orElse _ = some c
      rw [hn]
      rfl
    have hss : structSearch d (.obj fs) = some c := by
      rw [structSearch, htop]
      rfl
    simp only [extract_from_llm, hss]
  · intro hnone
    rw [structSearch, hnone]
    rfl

/-- C5 witness: a top-level confidence of 0.9 wins over a metadata
confidence of 0.2. -/
theorem C5_witness :
    extract_from_llm 0.5 (.obj [(("confidence"), Json.num 0.9),
        (("metadata"), Json.obj [(("confidence"), Json.num 0.2)])]) = 0.9 :=
  (C5_priority 0.5 [(("confidence"), Json.num 0.9),
      (("metadata"), Json.obj [(("confidence"), Json.num 0.2)])] (Json.num 0.9) 0.9).2.1
    rfl rfl

/-- C6: the consensus strategy returns mean times `1 − min(2·variance, 0.5)`
with the population variance; three agreeing scores of 0.9 combine to 0.9,
and disagreement depresses the result below the plain average. -/
theorem C6_consensus (c : ℚ) (cs : List ℚ) (w : Option (List ℚ)) :
    (combine (c :: cs) ("consensus") w =
      ((c :: cs).sum / (((c :: cs).length : ℕ) : ℚ)) *
        (1 - min ((((c :: cs).map fun x =>
            (x - (c :: cs).sum / (((c :: cs).length : ℕ) : ℚ)) ^ 2).sum /
              (((c :: cs).length : ℕ) : ℚ)) * 2) 0.5)) ∧
    combine [0.9, 0.9, 0.9] ("consensus") none = 0.9 ∧
    combine [0.1, 0.9] ("consensus") none < combine [0.1, 0.9] ("avg") none :=
  ⟨combine_consensus_eq c cs w, by decide, by decide⟩

/-- C7: `weighted_avg` uses the supplied weights exactly when they are
present, of matching length and of strictly positive sum; in every other
case it falls back to the 1-based ascending ramp. -/
theorem C7_weighted_avg (c : ℚ) (cs : List ℚ) (ws : List ℚ) :
    (ws.length = (c :: cs).length → 0 < ws.sum →
      combine (c :: cs) ("weighted_avg") (some ws) =
        (((c :: cs).zip ws).map fun p => p.1 * p.2).sum / ws.sum) ∧
    (ws.length = (c :: cs).length → ¬0 < ws.sum →
      combine (c :: cs) ("weighted_avg") (some ws) = default_ramp (c :: cs)) ∧
    (ws.length ≠ (c :: cs).length →
      combine (c :: cs) ("weighted_avg") (some ws) = default_ramp (c :: cs)) ∧
    combine (c :: cs) ("weighted_avg") none = default_ramp (c :: cs) ∧
    default_ramp (c :: cs) =
      ((c :: cs).enum.map fun p => p.2 * ((p.1 + 1 : ℕ) : ℚ)).sum /
        ((List.range (c :: cs).length).map fun i => ((i + 1 : ℕ) : ℚ)).sum :=
  ⟨combine_wavg_pos c cs ws, combine_wavg_nonpos c cs ws, combine_wavg_mismatch c cs ws,
   combine_wavg_none c cs, rfl⟩

/-- C7 witness: matching positive weights are used; a mismatched or
non-positive weight vector falls back to the ramp. -/
theorem C7_witness :
    combine [0.2, 0.8] ("weighted_avg") (some [1, 3]) = 0.65 ∧
    combine [0.2, 0.8] ("weighted_avg") (some [1, 2, 3]) = default_ramp [0.2, 0.8] ∧
    combine [0.2, 0.8] ("weighted_avg") (some [1, -1]) = default_ramp [0.2, 0.8] := by
  have h1 := C7_weighted_avg 0.2 [0.8] [1, 3]
  have h2 := C7_weighted_avg 0.2 [0.8] [1, 2, 3]
  have h3 := C7_weighted_avg 0.2 [0.8] [1, -1]
  refine ⟨?_, ?_, ?_⟩
  · rw [h1.1 (by decide) (by decide)]
    decide
  · exact h2.2.2.1 (by decide)
  · exact h3.2.1 (by decide) (by decide)

/-- C8 counterexample: two distinct results take the non-trivial branch and
give exactly 0.5, which is not in the claimed range `(0.5, 0.95]`. -/
theorem C8_counterexample :
    from_consistency [Json.null, Json.bool true] = 0.5 ∧
      ¬0.5 < from_consistency [Json.null, Json.bool true] := by
  decide

/-- C8 (amended): fewer than two results give 0.5; two or more results that
all canonicalize to one string give 0.95; otherwise the result is
`0.5 + (1 − (uniqueCount − 1)/(n − 1))·0.45`, and this branch yields values
in the range `[0.5, 0.95)`. -/
theorem C8_consistency (results : List Json) :
    (results.length < 2 → from_consistency results = 0.5) ∧
    (2 ≤ results.length →
      ((results.map renderJson).dedup.length = 1 → from_consistency results = 0.95) ∧
      ((results.map renderJson).dedup.length ≠ 1 →
        from_consistency results =
          0.5 + (1 - (((results.map renderJson).dedup.length - 1 : ℕ) : ℚ) /
            ((results.length - 1 : ℕ) : ℚ)) * 0.45 ∧
        0.5 ≤ from_consistency results ∧ from_consistency results < 0.95)) := by
  constructor
  · intro h
    exact from_consistency_short results h
  · intro h2
    have hn : ¬results.length < 2 := by omega
    constructor
    · intro hu
      exact from_consistency_perfect results hn hu
    · intro hu
      have heq := from_consistency_formula results hn hu
      obtain ⟨hu1, hun⟩ := unique_count_bounds results h2
      have hu2 : 2 ≤ (results.map renderJson).dedup.length := by omega
      have ha1 : (1 : ℚ) ≤ (((results.map renderJson).dedup.length - 1 : ℕ) : ℚ) := by
        have hx : 1 ≤ (results.map renderJson).dedup.length - 1 := by omega
        exact_mod_cast hx
      have hb1 : (1 : ℚ) ≤ ((results.length - 1 : ℕ) : ℚ) := by
        have hx : 1 ≤ results.length - 1 := by omega
        exact_mod_cast hx
      have hab : (((results.map renderJson).dedup.length - 1 : ℕ) : ℚ) ≤
          ((results.length - 1 : ℕ) : ℚ) := by
        have hx : (results.map renderJson).dedup.length - 1 ≤ results.length - 1 := by
          omega
        exact_mod_cast hx
      have hbpos : (0 : ℚ) < ((results.length - 1 : ℕ) : ℚ) := by linarith
      have hrle : (((results.map renderJson).dedup.length - 1 : ℕ) : ℚ) /
          ((results.length - 1 : ℕ) : ℚ) ≤ 1 := (div_le_one hbpos).mpr hab
      have hrpos : 0 < (((results.map renderJson).dedup.length - 1 : ℕ) : ℚ) /
          ((results.length - 1 : ℕ) : ℚ) := div_pos (by linarith) hbpos
      refine ⟨heq, ?_, ?_⟩
      · rw [heq]
        nlinarith
      · rw [heq]
        nlinarith

/-- C8 witness: three results with two distinct canonical forms give
`0.5 + 0.5·0.45 = 0.725`, inside `[0.5, 0.95)`. -/
theorem C8_witness :
    from_consistency [Json.num 1, Json.num 1, Json.num 2] = 0.725 ∧
      0.5 ≤ from_consistency [Json.num 1, Json.num 1, Json.num 2] ∧
      from_consistency [Json.num 1, Json.num 1, Json.num 2] < 0.95 := by
  have h := ((C8_consistency [Json.num 1, Json.num 1, Json.num 2]).2 (by decide)).2
    (by decide)
  refine ⟨?_, h.2.1, h.2.2⟩
  rw [h.1]
  decide

/-- C9: `combine` never fails: the empty sequence gives 0.5 under every
strategy; on a nonempty sequence `min` returns the least element, `max` the
greatest, `avg` the arithmetic mean, and any unrecognized label behaves
exactly as `avg`. -/
theorem C9_strategies (strat : String) (w : Option (List ℚ)) (c x : ℚ) (cs : List ℚ) :
    combine [] strat w = 0.5 ∧
    (combine (c :: cs) ("min") w ∈ c :: cs ∧
      (x ∈ c :: cs → combine (c :: cs) ("min") w ≤ x)) ∧
    (combine (c :: cs) ("max") w ∈ c :: cs ∧
      (x ∈ c :: cs → x ≤ combine (c :: cs) ("max") w)) ∧
    combine (c :: cs) ("avg") w = (c :: cs).sum / (((c :: cs).length : ℕ) : ℚ) ∧
    (strat ≠ "min" → strat ≠ "max" → strat ≠ "avg" → strat ≠ "weighted_avg" →
      strat ≠ "consensus" → combine (c :: cs) strat w = combine (c :: cs) ("avg") w) := by
  refine ⟨combine_nil strat w, ⟨?_, ?_⟩, ⟨?_, ?_⟩, combine_avg_eq c cs w, ?_⟩
  · rw [combine_min_eq]
    exact foldl_min_mem cs c
  · intro hx
    rw [combine_min_eq]
    exact foldl_min_le cs c x hx
  · rw [combine_max_eq]
    exact foldl_max_mem cs c
  · intro hx
    rw [combine_max_eq]
    exact foldl_max_ge cs c x hx
  · intro h1 h2 h3 h4 h5
    rw [combine_other_eq c cs strat w h1 h2 h3 h4 h5, combine_avg_eq]

/-- C9 witness: the strategy facts at `[0.2, 0.8]` with the unknown label
`median`. -/
theorem C9_witness :
    combine [] ("median") none = 0.5 ∧
      combine [0.2, 0.8] ("min") none ∈ [(0.2 : ℚ), 0.8] ∧
      combine [0.2, 0.8] ("min") none ≤ 0.8 ∧
      0.8 ≤ combine [0.2, 0.8] ("max") none ∧
      combine [0.2, 0.8] ("median") none = combine [0.2, 0.8] ("avg") none := by
  have h := C9_strategies ("median") none 0.2 0.8 [0.8]
  exact ⟨h.1, h.2.1.1, h.2.1.2 (by decide), h.2.2.1.2 (by decide),
    h.2.2.2.2 (by decide) (by decide) (by decide) (by decide) (by decide)⟩

/-- C10: a priority field holding a boolean, null, array or object never
normalizes, so the structured search skips it; when every priority field
(top-level and under metadata) is such a value, extraction falls through to
the text patterns over the rendering, and to the configured default when no
pattern matches — never an error. -/
theorem C10_nonscalar (d : ℚ) (v : Json) (fs : List (String × Json)) :
    (isNumOrStr v = false → normalize_confidence d v = none) ∧
    (priorityFieldsNonScalar fs = true →
      extract_from_llm d (.obj fs) = extract_from_text d (renderJson (.obj fs))) ∧
    (priorityFieldsNonScalar fs = true →
      findTextPattern (renderJson (.obj fs)).data = none →
      extract_from_llm d (.obj fs) = d) := by
  refine ⟨normalize_nonscalar d v, ?_, ?_⟩
  · intro h
    simp only [extract_from_llm, structSearch_none_of_nonscalar d fs h]
  · intro h hfp
    simp only [extract_from_llm, structSearch_none_of_nonscalar d fs h,
      extract_from_text, hfp]

/-- C10 witness: a boolean confidence field and an array are skipped and the
whole extraction lands on the default. -/
theorem C10_witness :
    normalize_confidence 0.5 (Json.arr []) = none ∧
      extract_from_llm 0.5 (.obj [(("confidence"), Json.bool true),
        (("metadata"), Json.obj [(("score"), Json.null)])]) = 0.5 := by
  have h := C10_nonscalar 0.5 (Json.arr [])
    [(("confidence"), Json.bool true), (("metadata"), Json.obj [(("score"), Json.null)])]
  exact ⟨h.1 rfl, h.2.2 (by decide) (by decide)⟩

end Parallax
